import Mathlib

/-!
Verification of tsv2ledger (src/tsv2ledger.py) against its specification.

The script converts a tab-separated accounting journal in localized Polish
format into the plain-text journal format of the ledger program.  Strings are
modelled as lists of unicode characters (`List Char`), which matches the
codepoint semantics of Python `str` (length, indexing, splitting).
-/

namespace Tsv2Ledger

/-- Python strings are modelled as lists of codepoints. -/
abbrev Str := List Char

/-- The whitespace class used by the script.  Python regular expression
class backslash-s and Python str.split and int both treat the ASCII
whitespace characters and the no-break space U+00A0 as whitespace; these are
the whitespace characters exercised by the input format (ordinary space and
no-break space as thousands separators). -/
def isPySpace (c : Char) : Bool :=
  c = ' ' || c = '\t' || c = '\n' || c = '\r' ||
  c = '\x0b' || c = '\x0c' || c = '\xa0'

/-- The character class of the integer part of an amount: an ASCII digit or
a whitespace character (regular expression class, digits zero to nine plus
backslash-s). -/
def isAmountClass (c : Char) : Bool :=
  c.isDigit || isPySpace c

/-- remove_whitespace: re.sub applied with the whitespace class, substituting
the empty string — removes every whitespace character. -/
def remove_whitespace (s : Str) : Str :=
  s.filter (fun c => !isPySpace c)

/-- Numeric value of a list of ASCII digit characters (base 10). -/
def digitsVal (s : Str) : Nat :=
  s.foldl (fun a c => 10 * a + (c.toNat - '0'.toNat)) 0

/-- Decimal rendering of a natural number, as Python repr of int. -/
def natRepr (n : Nat) : Str :=
  Nat.toDigits 10 n

/-- Decimal rendering of an integer, as Python f-string of an int value. -/
def intRepr (i : Int) : Str :=
  if i < 0 then '-' :: natRepr i.natAbs else natRepr i.natAbs

/-- Strip leading and trailing whitespace (Python int tolerates surrounding
whitespace in its argument). -/
def stripWs (s : Str) : Str :=
  ((s.dropWhile isPySpace).reverse.dropWhile isPySpace).reverse

/-- Nonempty all-digit string to its value; otherwise failure. -/
def digitsNat (s : Str) : Option Nat :=
  if s ≠ [] ∧ s.all Char.isDigit then some (digitsVal s) else none

/-- Python int applied to a string: optional surrounding whitespace, an
optional sign, then a nonempty run of decimal digits.  (Underscore digit
separators and non-ASCII digits, which Python would also accept, are not part
of the input format and are not modelled.)  Failure models the ValueError
raised by int on such an argument, and also the TypeError raised when the
argument is absent. -/
def pyInt (s : Str) : Option Int :=
  match stripWs s with
  | '-' :: ds => (digitsNat ds).map (fun n => -(n : Int))
  | '+' :: ds => (digitsNat ds).map (fun n => (n : Int))
  | ds => (digitsNat ds).map (fun n => (n : Int))

/-- Zero padding of an integer to a minimum total width, as the Python format
specification 0 followed by the width: the sign is emitted first and the
digits are padded with zeros up to the width. -/
def pyFmtZero (width : Nat) (i : Int) : Str :=
  if i < 0 then
    '-' :: List.replicate (width - 1 - (natRepr i.natAbs).length) '0' ++ natRepr i.natAbs
  else
    List.replicate (width - (natRepr i.natAbs).length) '0' ++ natRepr i.natAbs

/-- Split on a single separator character, as Python str.split with an
explicit one-character separator: empty segments are kept, and the empty
string yields one empty segment. -/
def splitOnChar (sep : Char) : Str → List Str
  | [] => [[]]
  | c :: cs =>
    if c = sep then [] :: splitOnChar sep cs
    else
      match splitOnChar sep cs with
      | [] => [[c]]
      | p :: ps => (c :: p) :: ps

/-- Join a list of strings with a separator string, as Python str.join. -/
def joinSep (sep : Str) : List Str → Str
  | [] => []
  | [p] => p
  | p :: ps => p ++ sep ++ joinSep sep ps

/-- Worker for whitespace splitting: cur holds the (reversed) token read so
far. -/
def splitWsAcc (cur : Str) : Str → List Str
  | [] => if cur = [] then [] else [cur.reverse]
  | c :: cs =>
    if isPySpace c then
      if cur = [] then splitWsAcc [] cs else cur.reverse :: splitWsAcc [] cs
    else splitWsAcc (c :: cur) cs

/-- Python str.split with no argument: split on runs of whitespace,
discarding empty tokens and surrounding whitespace. -/
def splitWs (s : Str) : List Str :=
  splitWsAcc [] s

/-- account_in_ledger_fmt: split the backslash-delimited leaf-first path,
reverse the segments, join with colons. -/
def account_in_ledger_fmt (s : Str) : Str :=
  joinSep [':'] (splitOnChar '\\' s).reverse

/-- The fixed 12-entry month abbreviation table of date_in_ledger_fmt. -/
def months : List Str :=
  ["sty".data, "lut".data, "mar".data, "kwi".data, "maj".data, "cze".data,
   "lip".data, "sie".data, "wrz".data, "paź".data, "lis".data, "gru".data]

/-- date_in_ledger_fmt: the first three whitespace-separated tokens are day,
month abbreviation and year; trailing tokens are ignored.  Failure models the
ValueError raised on fewer than three tokens (unpacking), a non-numeric day
or year (int), or a month abbreviation absent from the table (list.index). -/
def date_in_ledger_fmt (s : Str) : Option Str :=
  match splitWs s with
  | day :: monthName :: year :: _ =>
    (pyInt day).bind fun d =>
      (months.findIdx? (fun m => m == monthName)).bind fun i =>
        (pyInt year).map fun y =>
          intRepr y ++ '/' :: pyFmtZero 2 ((i : Int) + 1) ++ '/' :: pyFmtZero 2 d
  | _ => none

/-- The three currency markers accepted by the amount patterns. -/
inductive Cur where
  | eur
  | pln
  | zl
deriving DecidableEq

/-- The literal text of a currency marker as it occurs in the input. -/
def curStr : Cur → Str
  | .eur => "EUR".data
  | .pln => "PLN".data
  | .zl => "zł".data

/-- The currency_symbols mapping: the two ASCII codes map to themselves and
the localized symbol maps to PLN. -/
def curCode : Cur → Str
  | .eur => "EUR".data
  | .pln => "PLN".data
  | .zl => "PLN".data

/-- Match the currency alternation of the patterns as a prefix of the
remaining input (a search match does not need to reach the end of the
string). -/
def parseCur (s : Str) : Option Cur :=
  if "EUR".data.isPrefixOf s then some .eur
  else if "PLN".data.isPrefixOf s then some .pln
  else if "zł".data.isPrefixOf s then some .zl
  else none

/-- Captured groups of the positive and negative amount patterns: integer
part, the two fraction digits, the currency marker. -/
abbrev AmtGroups := Str × Char × Char × Cur

/-- Match of the positive amount pattern anchored at the start of s.  The
pattern is: a nonempty class run (digits and whitespace), a comma, two
digits, nonempty whitespace, a currency marker.  Greedy matching with
backtracking of the class run and of the whitespace run is equivalent to
taking the maximal run, because a comma is not a class character and no
currency marker starts with a whitespace character. -/
def posMatchAt (s : Str) : Option AmtGroups :=
  let ip := s.takeWhile isAmountClass
  if ip = [] then none
  else
    match s.dropWhile isAmountClass with
    | ',' :: f1 :: f2 :: rest =>
      if f1.isDigit && f2.isDigit then
        if rest.takeWhile isPySpace = [] then none
        else (parseCur (rest.dropWhile isPySpace)).map fun c => (ip, f1, f2, c)
      else none
    | _ => none

/-- re.search of the positive amount pattern: try each start position from
the left and return the first match. -/
def posSearch : Str → Option AmtGroups
  | [] => none
  | c :: cs =>
    match posMatchAt (c :: cs) with
    | some g => some g
    | none => posSearch cs

/-- Match of the negative (parenthesized) amount pattern anchored at the
start of s: an opening parenthesis, a nonempty class run, a comma, two
digits, a closing parenthesis, nonempty whitespace, a currency marker. -/
def negMatchAt (s : Str) : Option AmtGroups :=
  match s with
  | '(' :: rest =>
    let ip := rest.takeWhile isAmountClass
    if ip = [] then none
    else
      match rest.dropWhile isAmountClass with
      | ',' :: f1 :: f2 :: ')' :: rest2 =>
        if f1.isDigit && f2.isDigit then
          if rest2.takeWhile isPySpace = [] then none
          else (parseCur (rest2.dropWhile isPySpace)).map fun c => (ip, f1, f2, c)
        else none
      | _ => none
  | _ => none

/-- re.search of the negative amount pattern. -/
def negSearch : Str → Option AmtGroups
  | [] => none
  | c :: cs =>
    match negMatchAt (c :: cs) with
    | some g => some g
    | none => negSearch cs

/-- Match of the zero amount pattern anchored at the start of s: a hyphen,
nonempty whitespace, a currency marker.  The pattern contains the ASCII
hyphen-minus only. -/
def zeroMatchAt (s : Str) : Option Cur :=
  match s with
  | '-' :: rest =>
    if rest.takeWhile isPySpace = [] then none
    else parseCur (rest.dropWhile isPySpace)
  | _ => none

/-- re.search of the zero amount pattern. -/
def zeroSearch : Str → Option Cur
  | [] => none
  | c :: cs =>
    match zeroMatchAt (c :: cs) with
    | some g => some g
    | none => zeroSearch cs

/-- Insert a comma after every third character of a reversed digit string
(worker for thousands grouping). -/
def group3 : Str → Str
  | d1 :: d2 :: d3 :: d4 :: rest => d1 :: d2 :: d3 :: ',' :: group3 (d4 :: rest)
  | l => l

/-- Python format of a natural number with the comma thousands-grouping
option: decimal digits with a comma after every group of three, counted from
the right. -/
def commaGrouped (n : Nat) : Str :=
  (group3 (natRepr n).reverse).reverse

/-- Python format of an int with the comma thousands-grouping option. -/
def pyFmtComma (i : Int) : Str :=
  if i < 0 then '-' :: commaGrouped i.natAbs else commaGrouped i.natAbs

/-- amount_in_ledger_fmt: try the positive, then the negative, then the zero
pattern with re.search; on a match, build the normalized amount.  The outer
Option models a raised exception (int applied to an empty string when the
matched integer part contains no digit); the inner Option models the Python
None that the function returns when no pattern matches. -/
def amount_in_ledger_fmt (s : Str) : Option (Option Str) :=
  match posSearch s with
  | some (ip, f1, f2, c) =>
    (pyInt (remove_whitespace ip)).map fun v =>
      some (pyFmtComma v ++ '.' :: f1 :: f2 :: ' ' :: curCode c)
  | none =>
    match negSearch s with
    | some (ip, f1, f2, c) =>
      (pyInt (remove_whitespace ip)).map fun v =>
        some ('-' :: pyFmtComma v ++ '.' :: f1 :: f2 :: ' ' :: curCode c)
    | none =>
      match zeroSearch s with
      | some c => some (some ("0.00 ".data ++ curCode c))
      | none => some none

/-- One parsed journal row.  The amount field holds the value returned by
amount_in_ledger_fmt, which is the Python None when no amount pattern
matched; that None only causes a failure later, while rendering. -/
structure JournalRow where
  ordinal : Int
  date : Str
  description : Str
  account : Str
  amount : Option Str
deriving DecidableEq, Repr

/-- journal_row: build a JournalRow from the positional fields of one
record.  A missing field is the Python None filled in by csv.DictReader
(restval); applying int, a string method or re.search to it raises, which is
modelled as failure, as are the ValueError of int on a non-numeric ordinal
and the failures of the date parser.  Field four (other_account) and field
six (is_posted) are read but dropped. -/
def journal_row (fields : List Str) : Option JournalRow :=
  ((fields.get? 0).bind pyInt).bind fun ordinal =>
    ((fields.get? 1).bind date_in_ledger_fmt).bind fun date =>
      (fields.get? 2).bind fun desc =>
        (fields.get? 3).bind fun accountSrc =>
          ((fields.get? 5).bind amount_in_ledger_fmt).bind fun amt =>
            some ⟨ordinal, date, desc, account_in_ledger_fmt accountSrc, amt⟩

/-- The grouping table: ordinal to rows, in first-seen key order (Python
dict preserves insertion order). -/
abbrev TxList := List (Int × List JournalRow)

/-- Append a row to the group of its ordinal, creating the group at the end
on first sight (defaultdict of list). -/
def insertRow (txs : TxList) (r : JournalRow) : TxList :=
  match txs with
  | [] => [(r.ordinal, [r])]
  | (k, g) :: rest =>
    if k = r.ordinal then (k, g ++ [r]) :: rest
    else (k, g) :: insertRow rest r

/-- Parse and group the data records; the whole run aborts on the first
record whose parse raises. -/
def buildTxs : List (List Str) → TxList → Option TxList
  | [], acc => some acc
  | f :: fs, acc => (journal_row f).bind fun r => buildTxs fs (insertRow acc r)

/-- The records of the input text: lines, with blank lines dropped (the csv
reader yields an empty row for a blank line and csv.DictReader skips empty
rows), each split on tabs.  Quoting is not exercised by the input format and
is not modelled. -/
def recordsOf (input : Str) : List (List Str) :=
  ((splitOnChar '\n' input).filter (fun l => l ≠ [])).map (splitOnChar '\t')

/-- transactions_dict: skip exactly one header record, then parse and group
the rest.  An empty input fails (next on the reader raises StopIteration). -/
def transactions_dict (input : Str) : Option TxList :=
  match recordsOf input with
  | [] => none
  | _header :: data => buildTxs data []

/-- The data records (everything after the header record). -/
def dataRecords (input : Str) : List (List Str) :=
  (recordsOf input).tail

/-- Parse a list of records into rows, in order, aborting on the first
failure. -/
def parsedRowsRec : List (List Str) → Option (List JournalRow)
  | [] => some []
  | f :: fs => (journal_row f).bind fun r => (parsedRowsRec fs).map (r :: ·)

/-- The rows of the input parsed in file order, without grouping. -/
def parsedRows (input : Str) : Option (List JournalRow) :=
  parsedRowsRec (dataRecords input)

/-- Dictionary lookup by ordinal. -/
def lookupTx (k : Int) : TxList → Option (List JournalRow)
  | [] => none
  | (k', g) :: rest => if k' = k then some g else lookupTx k rest

/-- The keys of the grouping table, in insertion order. -/
def txKeys (txs : TxList) : List Int :=
  txs.map Prod.fst

/-- sorted applied to the dictionary keys: ascending order of the integer
ordinals. -/
def sortedKeys (txs : TxList) : List Int :=
  List.insertionSort (fun a b : Int => a ≤ b) (txKeys txs)

/-- indented: prepend width spaces to every line of the text (replace each
newline by newline plus indent, and prepend one indent). -/
def pyReplaceNl (indent : Str) : Str → Str
  | [] => []
  | c :: cs =>
    if c = '\n' then '\n' :: (indent ++ pyReplaceNl indent cs)
    else c :: pyReplaceNl indent cs

/-- indented with the default width of four spaces. -/
def indented (text : Str) (width : Nat) : Str :=
  List.replicate width ' ' ++ pyReplaceNl (List.replicate width ' ') text

/-- Minimum row length of a matrix; zip of the rows of the matrix truncates
every column tuple to this many entries. -/
def minLenRows (m : List (List Str)) : Nat :=
  match m with
  | [] => 0
  | r :: rs => rs.foldl (fun a row => min a row.length) r.length

/-- Worker for transposition: take the heads of all rows n times. -/
def transposedGo : Nat → List (List Str) → List (List Str)
  | 0, _ => []
  | n + 1, m => m.map (fun r => r.headD []) :: transposedGo n (m.map List.tail)

/-- transposed: zip of the rows of the matrix, as in the script.  For a
rectangular matrix this is the ordinary transpose; ragged rows are truncated
to the shortest. -/
def transposed (m : List (List Str)) : List (List Str) :=
  transposedGo (minLenRows m) m

/-- Maximum cell width of a column (Python max over a nonempty generator of
lengths; columns produced by transposition of a nonempty matrix are
nonempty, so the base value zero of the fold is never the result). -/
def maxLen (col : List Str) : Nat :=
  col.foldl (fun a cell => max a cell.length) 0

/-- str.ljust: pad on the right with spaces to the width. -/
def ljust (w : Nat) (s : Str) : Str :=
  s ++ List.replicate (w - s.length) ' '

/-- str.rjust: pad on the left with spaces to the width. -/
def rjust (w : Nat) (s : Str) : Str :=
  List.replicate (w - s.length) ' ' ++ s

/-- Justify one column to its maximum width according to its token; a token
other than l and r raises ValueError, modelled as failure. -/
def justifyCol (col : List Str) (tok : Str) : Option (List Str) :=
  if tok = ['l'] then some (col.map (ljust (maxLen col)))
  else if tok = ['r'] then some (col.map (rjust (maxLen col)))
  else none

/-- The loop of table: justify each column paired with its token; the pairs
are those produced by zip, which truncates to the shorter list. -/
def justifyCols : List (List Str × Str) → Option (List (List Str))
  | [] => some []
  | (col, tok) :: rest =>
    (justifyCol col tok).bind fun col' =>
      (justifyCols rest).map fun cols' => col' :: cols'

/-- The list result_lines of table: transpose, justify per column, transpose
back, join each row with the column gap. -/
def tableLines (rows : List (List Str)) (justify : Str) (colGap : Str) :
    Option (List Str) :=
  (justifyCols ((transposed rows).zip (splitWs justify))).map fun cols' =>
    (transposed cols').map (joinSep colGap)

/-- table: result_lines joined with newlines. -/
def table (rows : List (List Str)) (justify : Str) (colGap : Str) :
    Option Str :=
  (tableLines rows justify colGap).map (joinSep ['\n'])

/-- Render one transaction: the header line with the date and description of
the first row, the indented table of (account, amount) pairs of all rows in
file order, and a blank separator line; each written line ends in a newline.
Failure models the IndexError on an empty group (never reached: groups hold
at least the row that created them) and the TypeError raised inside table
when an amount is the Python None (length of None). -/
def renderTx (g : List JournalRow) : Option Str :=
  match g with
  | [] => none
  | r0 :: _ =>
    (g.mapM (fun (r : JournalRow) => r.amount.map (fun a => [r.account, a]))).bind
      fun transfers =>
        (table transfers "l r".data "  ".data).map fun t =>
          r0.date ++ ' ' :: r0.description ++ '\n' ::
            (indented t 4 ++ '\n' :: '\n' :: [])

/-- Render the transactions of the given keys in order, concatenating the
blocks. -/
def renderKeys : List Int → TxList → Option Str
  | [], _ => some []
  | k :: ks, txs =>
    (lookupTx k txs).bind fun g =>
      (renderTx g).bind fun block =>
        (renderKeys ks txs).map fun rest => block ++ rest

/-- The output phase: iterate the grouping table in ascending ordinal
order. -/
def renderAll (txs : TxList) : Option Str :=
  renderKeys (sortedKeys txs) txs

/-- The whole run.  The outer Option is the parsing phase: the destination
file is opened exactly when it is some, because the script opens the
destination only after transactions_dict has consumed the entire input.  The
inner Option is the output phase: none models an exception raised while
writing (after the destination was opened). -/
def mainOutput (input : Str) : Option (Option Str) :=
  (transactions_dict input).map renderAll

/-- The round trip of the account claim: split the parser output on colons,
reverse, and re-join with backslashes. -/
def accountRoundTrip (s : Str) : Str :=
  joinSep ['\\'] (splitOnChar ':' (account_in_ledger_fmt s)).reverse

/-- A structured valid localized amount, following the input format of the
specification: an integer part interleaving digits with grouping whitespace,
a comma, two fraction digits, whitespace, a currency marker, with
parentheses for a negative value and a lone hyphen for an explicit zero. -/
inductive SrcAmount where
  | pos (iws : Str) (f1 f2 : Char) (ws : Str) (cur : Cur)
  | neg (iws : Str) (f1 f2 : Char) (ws : Str) (cur : Cur)
  | zero (ws : Str) (cur : Cur)

/-- The text of a structured amount. -/
def renderSrc : SrcAmount → Str
  | .pos iws f1 f2 ws c => iws ++ ',' :: f1 :: f2 :: (ws ++ curStr c)
  | .neg iws f1 f2 ws c => '(' :: (iws ++ ',' :: f1 :: f2 :: ')' :: (ws ++ curStr c))
  | .zero ws c => '-' :: (ws ++ curStr c)

/-- Validity of a structured amount: the integer part consists of digits and
grouping whitespace and holds at least one digit, the fraction digits are
digits, and the whitespace before the currency marker is nonempty. -/
def validSrc : SrcAmount → Prop
  | .pos iws f1 f2 ws _ =>
    (∀ c ∈ iws, isAmountClass c = true) ∧ (∃ c ∈ iws, c.isDigit = true) ∧
      f1.isDigit = true ∧ f2.isDigit = true ∧
      ws ≠ [] ∧ (∀ c ∈ ws, isPySpace c = true)
  | .neg iws f1 f2 ws _ =>
    (∀ c ∈ iws, isAmountClass c = true) ∧ (∃ c ∈ iws, c.isDigit = true) ∧
      f1.isDigit = true ∧ f2.isDigit = true ∧
      ws ≠ [] ∧ (∀ c ∈ ws, isPySpace c = true)
  | .zero ws _ => ws ≠ [] ∧ (∀ c ∈ ws, isPySpace c = true)

/-- The normalized output form claimed by the specification: the integer
part with thousands-grouping commas, exactly two fraction digits, a leading
minus sign for a parenthesized input, and the normalized 3-letter currency
code. -/
def normalizedAmount : SrcAmount → Str
  | .pos iws f1 f2 _ c =>
    commaGrouped (digitsVal (remove_whitespace iws)) ++
      '.' :: f1 :: f2 :: ' ' :: curCode c
  | .neg iws f1 f2 _ c =>
    '-' :: (commaGrouped (digitsVal (remove_whitespace iws)) ++
      '.' :: f1 :: f2 :: ' ' :: curCode c)
  | .zero _ c => "0.00 ".data ++ curCode c

/-! ### Lemmas about character splitting and joining -/

theorem splitOnChar_ne_nil (sep : Char) (s : Str) : splitOnChar sep s ≠ [] := by
  cases s with
  | nil => simp [splitOnChar]
  | cons c cs =>
    by_cases h : c = sep
    · simp [splitOnChar, h]
    · simp only [splitOnChar, if_neg h]
      cases splitOnChar sep cs <;> simp

theorem joinSep_splitOnChar (sep : Char) (s : Str) :
    joinSep [sep] (splitOnChar sep s) = s := by
  induction s with
  | nil => simp [splitOnChar, joinSep]
  | cons c cs ih =>
    by_cases h : c = sep
    · subst h
      simp only [splitOnChar, if_pos rfl]
      cases hr : splitOnChar c cs with
      | nil => exact absurd hr (splitOnChar_ne_nil c cs)
      | cons p ps =>
        rw [hr] at ih
        simp [joinSep, ih]
    · simp only [splitOnChar, if_neg h]
      cases hr : splitOnChar sep cs with
      | nil => exact absurd hr (splitOnChar_ne_nil sep cs)
      | cons p ps =>
        rw [hr] at ih
        cases ps with
        | nil => simp_all [joinSep]
        | cons q qs => simp_all [joinSep]

theorem splitOnChar_of_not_mem (sep : Char) (s : Str) (h : sep ∉ s) :
    splitOnChar sep s = [s] := by
  induction s with
  | nil => simp [splitOnChar]
  | cons c cs ih =>
    simp only [List.mem_cons, not_or] at h
    have hne : ¬(c = sep) := fun hc => h.1 hc.symm
    simp [splitOnChar, hne, ih h.2]

theorem splitOnChar_append_sep (sep : Char) (p t : Str) (h : sep ∉ p) :
    splitOnChar sep (p ++ sep :: t) = p :: splitOnChar sep t := by
  induction p with
  | nil => simp [splitOnChar]
  | cons c cs ih =>
    simp only [List.mem_cons, not_or] at h
    have hne : ¬(c = sep) := fun hc => h.1 hc.symm
    simp only [List.cons_append, splitOnChar, if_neg hne]
    rw [show cs.append (sep :: t) = cs ++ sep :: t from rfl, ih h.2]

theorem splitOnChar_joinSep (sep : Char) (parts : List Str)
    (hne : parts ≠ []) (h : ∀ p ∈ parts, sep ∉ p) :
    splitOnChar sep (joinSep [sep] parts) = parts := by
  induction parts with
  | nil => exact absurd rfl hne
  | cons p ps ih =>
    cases ps with
    | nil =>
      simp only [joinSep]
      exact splitOnChar_of_not_mem sep p (h p (by simp))
    | cons q qs =>
      have hps : joinSep [sep] (p :: q :: qs) = p ++ sep :: joinSep [sep] (q :: qs) := by
        simp [joinSep]
      rw [hps, splitOnChar_append_sep sep p _ (h p (by simp)),
        ih (by simp) (fun r hr => h r (List.mem_cons_of_mem p hr))]

theorem mem_of_mem_splitOnChar (sep : Char) (s : Str) :
    ∀ p ∈ splitOnChar sep s, ∀ c ∈ p, c ∈ s := by
  induction s with
  | nil =>
    intro p hp c hc
    simp only [splitOnChar, List.mem_singleton] at hp
    subst hp
    simp at hc
  | cons d ds ih =>
    intro p hp c hc
    by_cases h : d = sep
    · simp only [splitOnChar, if_pos h, List.mem_cons] at hp
      rcases hp with hp | hp
      · subst hp; simp at hc
      · exact List.mem_cons_of_mem d (ih p hp c hc)
    · simp only [splitOnChar, if_neg h] at hp
      cases hr : splitOnChar sep ds with
      | nil => exact absurd hr (splitOnChar_ne_nil sep ds)
      | cons q qs =>
        rw [hr] at hp
        simp only [List.mem_cons] at hp
        rcases hp with hp | hp
        · subst hp
          rcases List.mem_cons.mp hc with hc | hc
          · simp [hc]
          · have hq : q ∈ splitOnChar sep ds := by
              rw [hr]; exact List.mem_cons_self q qs
            exact List.mem_cons_of_mem d (ih q hq c hc)
        · have hq : p ∈ splitOnChar sep ds := by
            rw [hr]; exact List.mem_cons_of_mem q hp
          exact List.mem_cons_of_mem d (ih p hq c hc)

/-- C7 counterexample: a path whose single segment contains a colon is not
reproduced by the round trip, so the claim fails as a statement about every
backslash-delimited path. -/
theorem c7_roundtrip_counterexample :
    accountRoundTrip "a:b".data = "b\\a".data ∧
      accountRoundTrip "a:b".data ≠ "a:b".data := by
  constructor <;> decide

/-- C7 (amended): for every backslash-delimited leaf-first account path none
of whose characters is a colon (equivalently: no segment contains a colon),
splitting the parser output on colons, reversing and re-joining with
backslashes reproduces the input exactly; and the example of the claim maps
as stated.  Empty segments are preserved: the proof nowhere excludes them. -/
theorem c7_account_roundtrip (s : Str) (h : ∀ c ∈ s, c ≠ ':') :
    accountRoundTrip s = s := by
  unfold accountRoundTrip account_in_ledger_fmt
  rw [splitOnChar_joinSep ':' (splitOnChar '\\' s).reverse
    (by simpa using splitOnChar_ne_nil '\\' s)
    (fun p hp hcol =>
      h ':' (mem_of_mem_splitOnChar '\\' s p (List.mem_reverse.mp hp) ':' hcol) rfl),
    List.reverse_reverse, joinSep_splitOnChar]

/-- C7 witness: the round trip at the example path of the claim, and the
example mapping itself. -/
theorem c7_account_roundtrip_witness :
    accountRoundTrip "Cache\\Current Assets\\Assets".data =
      "Cache\\Current Assets\\Assets".data ∧
    account_in_ledger_fmt "Cache\\Current Assets\\Assets".data =
      "Assets:Current Assets:Cache".data :=
  ⟨c7_account_roundtrip _ (by decide), by decide⟩

/-! ### Lemmas about integer parsing of digit tokens -/

theorem not_isPySpace_of_isDigit (c : Char) (h : c.isDigit) : isPySpace c = false := by
  cases hps : isPySpace c
  · rfl
  · exfalso
    simp only [isPySpace, Bool.or_eq_true, decide_eq_true_eq] at hps
    rcases hps with ((((((h1 | h1) | h1) | h1) | h1) | h1) | h1) <;>
      (subst h1; exact absurd h (by decide))

theorem dropWhile_eq_self_of_not (p : Char → Bool) (l : Str)
    (h : ∀ c ∈ l, p c = false) : l.dropWhile p = l := by
  cases l with
  | nil => rfl
  | cons c cs => simp [List.dropWhile, h c (List.mem_cons_self c cs)]

theorem stripWs_of_all_digit (s : Str) (h : s.all Char.isDigit) :
    stripWs s = s := by
  have hns : ∀ c ∈ s, isPySpace c = false := fun c hc =>
    not_isPySpace_of_isDigit c (by simpa using List.all_eq_true.mp h c hc)
  unfold stripWs
  rw [dropWhile_eq_self_of_not _ s hns,
    dropWhile_eq_self_of_not _ s.reverse (fun c hc => hns c (List.mem_reverse.mp hc)),
    List.reverse_reverse]

theorem pyInt_digits (s : Str) (hne : s ≠ []) (hd : s.all Char.isDigit) :
    pyInt s = some ((digitsVal s : Int)) := by
  unfold pyInt
  rw [stripWs_of_all_digit s hd]
  cases s with
  | nil => exact absurd rfl hne
  | cons c cs =>
    have hc : c.isDigit := by simpa using (List.all_eq_true.mp hd c (List.mem_cons_self c cs))
    have hcm : ¬(c = '-') := by intro h; subst h; simp [Char.isDigit] at hc
    have hcp : ¬(c = '+') := by intro h; subst h; simp [Char.isDigit] at hc
    have hnat : digitsNat (c :: cs) = some (digitsVal (c :: cs)) := by
      unfold digitsNat
      rw [if_pos ⟨by simp, hd⟩]
    split
    · next heq =>
      injection heq with h1 _
      exact absurd h1 hcm
    · next heq =>
      injection heq with h1 _
      exact absurd h1 hcp
    · simp [hnat]

/-! ### The date parser: C4 and C10 -/

/-- Shared computation lemma for the date parser on digit-token inputs. -/
theorem date_in_ledger_fmt_eq (s : Str) (day monthName year : Str)
    (rest : List Str) (i : Nat)
    (hsplit : splitWs s = day :: monthName :: year :: rest)
    (hday : day ≠ []) (hdayd : day.all Char.isDigit)
    (hyear : year ≠ []) (hyeard : year.all Char.isDigit)
    (hmon : months.findIdx? (fun m => m == monthName) = some i) :
    date_in_ledger_fmt s =
      some (natRepr (digitsVal year) ++
        '/' :: pyFmtZero 2 ((i : Int) + 1) ++
        '/' :: pyFmtZero 2 ((digitsVal day : Int))) := by
  unfold date_in_ledger_fmt
  rw [hsplit]
  dsimp only
  rw [pyInt_digits day hday hdayd, pyInt_digits year hyear hyeard, hmon]
  simp only [Option.some_bind', Option.map_some']
  have hir : intRepr ((digitsVal year : Int)) = natRepr (digitsVal year) := by
    unfold intRepr
    rw [if_neg (by omega), Int.natAbs_ofNat]
  rw [hir]

/-- C4: for every date string whose first three whitespace-separated tokens
are a digit day, a month abbreviation found in the fixed 12-entry table, and
a digit year, the parser returns the slash-separated date with the month and
day zero-padded to two digits and the trailing tokens ignored; it fails when
the month abbreviation is not in the table and when fewer than three tokens
are present (FormatError of the specification is a raised exception of the
script, modelled as none). -/
theorem c4_date_conversion :
    (∀ (s : Str) (day monthName year : Str) (rest : List Str) (i : Nat),
      splitWs s = day :: monthName :: year :: rest →
      day ≠ [] → day.all Char.isDigit →
      year ≠ [] → year.all Char.isDigit →
      months.findIdx? (fun m => m == monthName) = some i →
      date_in_ledger_fmt s =
        some (natRepr (digitsVal year) ++
          '/' :: pyFmtZero 2 ((i : Int) + 1) ++
          '/' :: pyFmtZero 2 ((digitsVal day : Int)))) ∧
    (∀ (s : Str) (day monthName year : Str) (rest : List Str),
      splitWs s = day :: monthName :: year :: rest →
      monthName ∉ months →
      date_in_ledger_fmt s = none) ∧
    (∀ s : Str, (splitWs s).length < 3 → date_in_ledger_fmt s = none) := by
  refine ⟨date_in_ledger_fmt_eq, ?_, ?_⟩
  · intro s day monthName year rest hsplit hmon
    have hnone : months.findIdx? (fun m => m == monthName) = none := by
      rw [List.findIdx?_eq_none_iff]
      intro m hm
      simp only [beq_eq_false_iff_ne, ne_eq]
      exact fun heq => hmon (heq ▸ hm)
    unfold date_in_ledger_fmt
    rw [hsplit]
    dsimp only
    rw [hnone]
    cases pyInt day <;> simp
  · intro s hlen
    rcases hts : splitWs s with _ | ⟨a, _ | ⟨b, _ | ⟨c, t⟩⟩⟩
    · unfold date_in_ledger_fmt; rw [hts]
    · unfold date_in_ledger_fmt; rw [hts]
    · unfold date_in_ledger_fmt; rw [hts]
    · exfalso
      rw [hts] at hlen
      simp only [List.length_cons] at hlen
      omega

/-- C4 witness: the example round trip of the claim, a month abbreviation
not in the table, and a two-token input. -/
theorem c4_date_conversion_witness :
    date_in_ledger_fmt "1 wrz 2022 (cz.)".data = some "2022/09/01".data ∧
    date_in_ledger_fmt "1 xxx 2022".data = none ∧
    date_in_ledger_fmt "1 wrz".data = none := by
  refine ⟨?_, ?_, ?_⟩
  · exact (c4_date_conversion.1 "1 wrz 2022 (cz.)".data "1".data "wrz".data
      "2022".data ["(cz.)".data] 8 (by decide) (by decide) (by decide)
      (by decide) (by decide) (by decide)).trans (by decide)
  · exact c4_date_conversion.2.1 "1 xxx 2022".data "1".data "xxx".data "2022".data
      [] (by decide) (by decide)
  · exact c4_date_conversion.2.2 "1 wrz".data (by decide)

/-- C10 counterexample: a day token with leading zeros is not emitted
verbatim; the emitted day is the zero-padded decimal rendering of its
numeric value, so the token 007 produces the component 07, not 007. -/
theorem c10_counterexample :
    date_in_ledger_fmt "007 wrz 2022".data = some "2022/09/07".data ∧
      some "2022/09/07".data ≠ some "2022/09/007".data := by
  constructor <;> decide

/-- C10 (amended): the date parser performs no range validation on the day
or year token: for every date string whose first three tokens are a digit
day, a known month abbreviation and a digit year, parsing succeeds, and the
day component of the output is the decimal rendering of the numeric value of
the day token zero-padded to at least two digits (leading zeros of the token
itself are not preserved). -/
theorem c10_no_day_range_validation (s : Str) (day monthName year : Str)
    (rest : List Str) (i : Nat)
    (hsplit : splitWs s = day :: monthName :: year :: rest)
    (hday : day ≠ []) (hdayd : day.all Char.isDigit)
    (hyear : year ≠ []) (hyeard : year.all Char.isDigit)
    (hmon : months.findIdx? (fun m => m == monthName) = some i) :
    (date_in_ledger_fmt s).isSome = true ∧
    date_in_ledger_fmt s =
      some (natRepr (digitsVal year) ++
        '/' :: pyFmtZero 2 ((i : Int) + 1) ++
        '/' :: pyFmtZero 2 ((digitsVal day : Int))) := by
  have h := date_in_ledger_fmt_eq s day monthName year rest i hsplit hday hdayd
    hyear hyeard hmon
  exact ⟨by rw [h]; rfl, h⟩

/-- C10 witness: a day of 99 is accepted and produces a calendar-invalid
date ending in 99. -/
theorem c10_no_day_range_validation_witness :
    (date_in_ledger_fmt "99 wrz 2022".data).isSome = true ∧
    date_in_ledger_fmt "99 wrz 2022".data = some "2022/09/99".data := by
  have h := c10_no_day_range_validation "99 wrz 2022".data "99".data "wrz".data
    "2022".data [] 8 (by decide) (by decide) (by decide) (by decide) (by decide)
    (by decide)
  exact ⟨h.1, h.2.trans (by decide)⟩

/-! ### Lemmas about the amount pattern searches -/

theorem takeWhile_all_append (p : Char → Bool) (xs t : Str)
    (h : ∀ c ∈ xs, p c = true) :
    (xs ++ t).takeWhile p = xs ++ t.takeWhile p := by
  induction xs with
  | nil => rfl
  | cons a as ih =>
    simp [List.takeWhile_cons, h a (List.mem_cons_self a as),
      ih (fun c hc => h c (List.mem_cons_of_mem a hc))]

theorem dropWhile_all_append (p : Char → Bool) (xs t : Str)
    (h : ∀ c ∈ xs, p c = true) :
    (xs ++ t).dropWhile p = t.dropWhile p := by
  induction xs with
  | nil => rfl
  | cons a as ih =>
    simp [List.dropWhile_cons, h a (List.mem_cons_self a as),
      ih (fun c hc => h c (List.mem_cons_of_mem a hc))]

theorem takeWhile_head_false (p : Char → Bool) (c : Char) (t : Str)
    (h : p c = false) : (c :: t).takeWhile p = [] := by
  simp [List.takeWhile_cons, h]

theorem dropWhile_head_false (p : Char → Bool) (c : Char) (t : Str)
    (h : p c = false) : (c :: t).dropWhile p = c :: t := by
  simp [List.dropWhile_cons, h]

/-- Heads of the currency markers are not class characters, not commas, not
parentheses, not whitespace. -/
theorem curStr_head_facts (cur : Cur) :
    ∃ c cs, curStr cur = c :: cs ∧ isAmountClass c = false ∧
      isPySpace c = false ∧ c ≠ ',' := by
  cases cur
  · exact ⟨'E', ['U', 'R'], by decide⟩
  · exact ⟨'P', ['L', 'N'], by decide⟩
  · exact ⟨'z', ['ł'], by decide⟩

theorem posSearch_cons_of_none (c : Char) (cs : Str)
    (h : posMatchAt (c :: cs) = none) : posSearch (c :: cs) = posSearch cs := by
  have hdef : posSearch (c :: cs) =
      match posMatchAt (c :: cs) with
      | some g => some g
      | none => posSearch cs := rfl
  rw [hdef, h]

/-- posMatchAt fails when the string starts with a maximal class run whose
follower is not a comma (or is absent). -/
theorem posMatchAt_class_then_noncomma (xs t : Str)
    (hxs : ∀ c ∈ xs, isAmountClass c = true)
    (ht : t = [] ∨ ∃ c cs, t = c :: cs ∧ isAmountClass c = false ∧ c ≠ ',') :
    posMatchAt (xs ++ t) = none := by
  have htw : t.takeWhile isAmountClass = [] := by
    rcases ht with rfl | ⟨c, cs, rfl, hc, _⟩
    · rfl
    · exact takeWhile_head_false _ c cs hc
  have hdw : t.dropWhile isAmountClass = t := by
    rcases ht with rfl | ⟨c, cs, rfl, hc, _⟩
    · rfl
    · exact dropWhile_head_false _ c cs hc
  unfold posMatchAt
  rw [takeWhile_all_append _ xs t hxs, dropWhile_all_append _ xs t hxs, htw, hdw]
  by_cases hxe : xs ++ ([] : Str) = []
  · rw [if_pos hxe]
  · rw [if_neg hxe]
    rcases ht with rfl | ⟨c, cs, rfl, _, hnc⟩
    · rfl
    · split
      · next heq =>
        injection heq with h1 _
        exact absurd h1 hnc
      · rfl

/-- posSearch skips over a run of class characters followed by something
that is neither a class character nor a comma. -/
theorem posSearch_class_append (xs t : Str)
    (hxs : ∀ c ∈ xs, isAmountClass c = true)
    (ht : t = [] ∨ ∃ c cs, t = c :: cs ∧ isAmountClass c = false ∧ c ≠ ',') :
    posSearch (xs ++ t) = posSearch t := by
  induction xs with
  | nil => rfl
  | cons a as ih =>
    have h1 : posMatchAt (a :: as ++ t) = none :=
      posMatchAt_class_then_noncomma (a :: as) t hxs ht
    rw [List.cons_append, posSearch_cons_of_none a (as ++ t) (by
      rw [← List.cons_append]; exact h1)]
    exact ih (fun c hc => hxs c (List.mem_cons_of_mem a hc))

/-- posMatchAt fails on a class run, a comma and two characters followed by
a non-whitespace character: the whitespace-run requirement after the two
fraction digits cannot be met. -/
theorem posMatchAt_comma_then_nonspace (xs : Str) (d1 d2 y : Char) (t : Str)
    (hxs : ∀ c ∈ xs, isAmountClass c = true) (hxe : xs ≠ [])
    (hy : isPySpace y = false) :
    posMatchAt (xs ++ ',' :: d1 :: d2 :: y :: t) = none := by
  have hcomma : isAmountClass ',' = false := by decide
  unfold posMatchAt
  rw [takeWhile_all_append _ xs _ hxs, dropWhile_all_append _ xs _ hxs,
    takeWhile_head_false _ ',' _ hcomma, dropWhile_head_false _ ',' _ hcomma]
  rw [if_neg (by simp [hxe])]
  split
  · next f1 f2 rest heq =>
    injection heq with _ h2
    injection h2 with h3 h4
    injection h4 with h5 h6
    subst h3
    subst h5
    subst h6
    by_cases hd : (d1.isDigit && d2.isDigit) = true
    · rw [if_pos hd, if_pos (takeWhile_head_false isPySpace y t hy)]
    · rw [if_neg hd]
  · rfl

/-- posSearch finds nothing in a class run followed by a comma, two
characters and a non-whitespace character, beyond what it finds after the
run. -/
theorem posSearch_class_comma_append (xs : Str) (d1 d2 y : Char) (t : Str)
    (hxs : ∀ c ∈ xs, isAmountClass c = true) (hy : isPySpace y = false) :
    posSearch (xs ++ ',' :: d1 :: d2 :: y :: t) =
      posSearch (',' :: d1 :: d2 :: y :: t) := by
  induction xs with
  | nil => rfl
  | cons a as ih =>
    have h1 : posMatchAt ((a :: as) ++ ',' :: d1 :: d2 :: y :: t) = none :=
      posMatchAt_comma_then_nonspace (a :: as) d1 d2 y t hxs (by simp) hy
    rw [List.cons_append, posSearch_cons_of_none a _ (by
      rw [← List.cons_append]; exact h1)]
    exact ih (fun c hc => hxs c (List.mem_cons_of_mem a hc))

/-- negSearch fails on any string containing no opening parenthesis. -/
theorem negSearch_eq_none (s : Str) (h : ∀ c ∈ s, c ≠ '(') :
    negSearch s = none := by
  induction s with
  | nil => rfl
  | cons c cs ih =>
    have hm : negMatchAt (c :: cs) = none := by
      unfold negMatchAt
      split
      · next heq =>
        injection heq with h1 _
        exact absurd h1 (h c (List.mem_cons_self c cs))
      · rfl
    have hdef : negSearch (c :: cs) =
        match negMatchAt (c :: cs) with
        | some g => some g
        | none => negSearch cs := rfl
    rw [hdef, hm]
    exact ih (fun d hd => h d (List.mem_cons_of_mem c hd))

/-- zeroSearch fails on any string containing no hyphen. -/
theorem zeroSearch_eq_none (s : Str) (h : ∀ c ∈ s, c ≠ '-') :
    zeroSearch s = none := by
  induction s with
  | nil => rfl
  | cons c cs ih =>
    have hm : zeroMatchAt (c :: cs) = none := by
      unfold zeroMatchAt
      split
      · next heq =>
        injection heq with h1 _
        exact absurd h1 (h c (List.mem_cons_self c cs))
      · rfl
    have hdef : zeroSearch (c :: cs) =
        match zeroMatchAt (c :: cs) with
        | some g => some g
        | none => zeroSearch cs := rfl
    rw [hdef, hm]
    exact ih (fun d hd => h d (List.mem_cons_of_mem c hd))

/-- posSearch finds nothing inside a currency marker. -/
theorem posSearch_curStr (cur : Cur) : posSearch (curStr cur) = none := by
  cases cur <;> decide

/-- Whitespace characters are not parentheses. -/
theorem ne_paren_of_isPySpace (c : Char) (h : isPySpace c = true) : c ≠ '(' := by
  intro he
  subst he
  exact absurd h (by decide)

/-- Class characters are not parentheses. -/
theorem ne_paren_of_isAmountClass (c : Char) (h : isAmountClass c = true) :
    c ≠ '(' := by
  intro he
  subst he
  exact absurd h (by decide)

/-- No character of a currency marker is a parenthesis. -/
theorem curStr_no_paren (cur : Cur) : ∀ c ∈ curStr cur, c ≠ '(' := by
  cases cur <;> decide

/-- No character of a currency marker is a hyphen. -/
theorem curStr_no_hyphen (cur : Cur) : ∀ c ∈ curStr cur, c ≠ '-' := by
  cases cur <;> decide

theorem isAmountClass_of_digit (c : Char) (h : c.isDigit = true) :
    isAmountClass c = true := by
  unfold isAmountClass
  rw [h, Bool.true_or]

theorem isAmountClass_of_space (c : Char) (h : isPySpace c = true) :
    isAmountClass c = true := by
  unfold isAmountClass
  rw [h, Bool.or_true]

theorem posMatchAt_head_notclass (c : Char) (cs : Str)
    (h : isAmountClass c = false) : posMatchAt (c :: cs) = none := by
  unfold posMatchAt
  rw [takeWhile_head_false _ c cs h]
  rfl

theorem posSearch_eq_of_matchAt (c : Char) (cs : Str) (g : AmtGroups)
    (h : posMatchAt (c :: cs) = some g) : posSearch (c :: cs) = some g := by
  have hdef : posSearch (c :: cs) =
      match posMatchAt (c :: cs) with
      | some g => some g
      | none => posSearch cs := rfl
  rw [hdef, h]

theorem negSearch_eq_of_matchAt (c : Char) (cs : Str) (g : AmtGroups)
    (h : negMatchAt (c :: cs) = some g) : negSearch (c :: cs) = some g := by
  have hdef : negSearch (c :: cs) =
      match negMatchAt (c :: cs) with
      | some g => some g
      | none => negSearch cs := rfl
  rw [hdef, h]

theorem zeroSearch_eq_of_matchAt (c : Char) (cs : Str) (g : Cur)
    (h : zeroMatchAt (c :: cs) = some g) : zeroSearch (c :: cs) = some g := by
  have hdef : zeroSearch (c :: cs) =
      match zeroMatchAt (c :: cs) with
      | some g => some g
      | none => zeroSearch cs := rfl
  rw [hdef, h]

theorem parseCur_curStr (cur : Cur) : parseCur (curStr cur) = some cur := by
  cases cur <;> decide

/-- The whitespace run before a currency marker: take the whitespace, stop
at the marker. -/
theorem takeWhile_space_before_cur (ws : Str) (cur : Cur)
    (hws : ∀ c ∈ ws, isPySpace c = true) :
    (ws ++ curStr cur).takeWhile isPySpace = ws ∧
      (ws ++ curStr cur).dropWhile isPySpace = curStr cur := by
  obtain ⟨c0, cs0, hcur, _, hnsp, _⟩ := curStr_head_facts cur
  constructor
  · rw [takeWhile_all_append _ ws _ hws, hcur,
      takeWhile_head_false _ c0 cs0 hnsp, List.append_nil]
  · rw [dropWhile_all_append _ ws _ hws, hcur, dropWhile_head_false _ c0 cs0 hnsp]

/-- The positive pattern matches at the start of a valid positive amount,
capturing the integer part, the fraction digits and the currency. -/
theorem posMatchAt_valid (iws : Str) (f1 f2 : Char) (ws : Str) (cur : Cur)
    (hiws : ∀ c ∈ iws, isAmountClass c = true) (hiwsne : iws ≠ [])
    (hf1 : f1.isDigit = true) (hf2 : f2.isDigit = true)
    (hws : ws ≠ []) (hwsall : ∀ c ∈ ws, isPySpace c = true) :
    posMatchAt (iws ++ ',' :: f1 :: f2 :: (ws ++ curStr cur)) =
      some (iws, f1, f2, cur) := by
  have hcomma : isAmountClass ',' = false := by decide
  obtain ⟨htw, hdw⟩ := takeWhile_space_before_cur ws cur hwsall
  unfold posMatchAt
  rw [takeWhile_all_append _ iws _ hiws, takeWhile_head_false _ ',' _ hcomma,
    List.append_nil, dropWhile_all_append _ iws _ hiws,
    dropWhile_head_false _ ',' _ hcomma]
  rw [if_neg hiwsne]
  split
  · next g1 g2 rest heq =>
    injection heq with _ h2
    injection h2 with h3 h4
    injection h4 with h5 h6
    subst h3
    subst h5
    subst h6
    rw [if_pos (by simp [hf1, hf2]), htw, hdw, if_neg hws, parseCur_curStr]
    rfl
  · next hne =>
    exact absurd rfl (hne f1 f2 (ws ++ curStr cur))

/-- The negative pattern matches at the start of a valid parenthesized
amount. -/
theorem negMatchAt_valid (iws : Str) (f1 f2 : Char) (ws : Str) (cur : Cur)
    (hiws : ∀ c ∈ iws, isAmountClass c = true) (hiwsne : iws ≠ [])
    (hf1 : f1.isDigit = true) (hf2 : f2.isDigit = true)
    (hws : ws ≠ []) (hwsall : ∀ c ∈ ws, isPySpace c = true) :
    negMatchAt ('(' :: (iws ++ ',' :: f1 :: f2 :: ')' :: (ws ++ curStr cur))) =
      some (iws, f1, f2, cur) := by
  have hcomma : isAmountClass ',' = false := by decide
  obtain ⟨htw, hdw⟩ := takeWhile_space_before_cur ws cur hwsall
  unfold negMatchAt
  split
  · next rest heq =>
    injection heq with _ h2
    subst h2
    rw [takeWhile_all_append _ iws _ hiws, takeWhile_head_false _ ',' _ hcomma,
      List.append_nil, dropWhile_all_append _ iws _ hiws,
      dropWhile_head_false _ ',' _ hcomma]
    rw [if_neg hiwsne]
    split
    · next g1 g2 rest2 heq2 =>
      injection heq2 with _ h2
      injection h2 with h3 h4
      injection h4 with h5 h6
      injection h6 with _ h7
      subst h3
      subst h5
      subst h7
      rw [if_pos (by simp [hf1, hf2]), htw, hdw, if_neg hws, parseCur_curStr]
      rfl
    · next hne =>
      exact absurd rfl (hne f1 f2 (ws ++ curStr cur))
  · next hne =>
    exact absurd rfl (hne (iws ++ ',' :: f1 :: f2 :: ')' :: (ws ++ curStr cur)))

/-- The zero pattern matches at the start of a valid explicit zero. -/
theorem zeroMatchAt_valid (ws : Str) (cur : Cur)
    (hws : ws ≠ []) (hwsall : ∀ c ∈ ws, isPySpace c = true) :
    zeroMatchAt ('-' :: (ws ++ curStr cur)) = some cur := by
  obtain ⟨htw, hdw⟩ := takeWhile_space_before_cur ws cur hwsall
  unfold zeroMatchAt
  split
  · next rest heq =>
    injection heq with _ h2
    subst h2
    rw [htw, hdw, if_neg hws, parseCur_curStr]
  · next hne =>
    exact absurd rfl (hne (ws ++ curStr cur))

/-- The positive search fails on a valid parenthesized amount: every start
position fails, because the only comma is followed by the two fraction
digits and the closing parenthesis, where the pattern demands whitespace. -/
theorem posSearch_neg_input (iws : Str) (f1 f2 : Char) (ws : Str) (cur : Cur)
    (hiws : ∀ c ∈ iws, isAmountClass c = true)
    (hf1 : f1.isDigit = true) (hf2 : f2.isDigit = true)
    (hwsall : ∀ c ∈ ws, isPySpace c = true) :
    posSearch ('(' :: (iws ++ ',' :: f1 :: f2 :: ')' :: (ws ++ curStr cur))) =
      none := by
  obtain ⟨c0, cs0, hcur, hc0, _, hc0c⟩ := curStr_head_facts cur
  rw [posSearch_cons_of_none _ _
    (posMatchAt_head_notclass '(' _ (by decide))]
  rw [posSearch_class_comma_append iws f1 f2 ')' (ws ++ curStr cur) hiws (by decide)]
  rw [posSearch_cons_of_none _ _
    (posMatchAt_head_notclass ',' _ (by decide))]
  rw [show (f1 :: f2 :: ')' :: (ws ++ curStr cur)) =
    [f1, f2] ++ (')' :: (ws ++ curStr cur)) from rfl]
  rw [posSearch_class_append [f1, f2] _
    (by
      intro c hc
      rcases List.mem_cons.mp hc with h | h
      · exact isAmountClass_of_digit c (h ▸ hf1)
      · rcases List.mem_singleton.mp h with rfl
        exact isAmountClass_of_digit _ hf2)
    (Or.inr ⟨')', ws ++ curStr cur, rfl, by decide, by decide⟩)]
  rw [posSearch_cons_of_none _ _
    (posMatchAt_head_notclass ')' _ (by decide))]
  rw [posSearch_class_append ws (curStr cur)
    (fun c hc => isAmountClass_of_space c (hwsall c hc))
    (Or.inr ⟨c0, cs0, hcur, hc0, hc0c⟩)]
  exact posSearch_curStr cur

/-- The positive search fails on a valid explicit zero. -/
theorem posSearch_zero_input (ws : Str) (cur : Cur)
    (hwsall : ∀ c ∈ ws, isPySpace c = true) :
    posSearch ('-' :: (ws ++ curStr cur)) = none := by
  obtain ⟨c0, cs0, hcur, hc0, _, hc0c⟩ := curStr_head_facts cur
  rw [posSearch_cons_of_none _ _
    (posMatchAt_head_notclass '-' _ (by decide))]
  rw [posSearch_class_append ws (curStr cur)
    (fun c hc => isAmountClass_of_space c (hwsall c hc))
    (Or.inr ⟨c0, cs0, hcur, hc0, hc0c⟩)]
  exact posSearch_curStr cur

/-- The negative search fails on a valid explicit zero (the input has no
opening parenthesis). -/
theorem negSearch_zero_input (ws : Str) (cur : Cur)
    (hwsall : ∀ c ∈ ws, isPySpace c = true) :
    negSearch ('-' :: (ws ++ curStr cur)) = none := by
  apply negSearch_eq_none
  intro c hc
  rcases List.mem_cons.mp hc with rfl | hc
  · decide
  · rcases List.mem_append.mp hc with hc | hc
    · exact ne_paren_of_isPySpace c (hwsall c hc)
    · exact curStr_no_paren cur c hc

theorem remove_whitespace_all_digit (iws : Str)
    (h : ∀ c ∈ iws, isAmountClass c = true) :
    (remove_whitespace iws).all Char.isDigit = true := by
  rw [List.all_eq_true]
  intro c hc
  unfold remove_whitespace at hc
  rw [List.mem_filter] at hc
  have hclass := h c hc.1
  unfold isAmountClass at hclass
  rcases Bool.or_eq_true_iff.mp hclass with hd | hs
  · simpa using hd
  · exfalso
    have := hc.2
    rw [hs] at this
    exact absurd this (by decide)

theorem remove_whitespace_ne_nil (iws : Str)
    (h : ∃ c ∈ iws, c.isDigit = true) : remove_whitespace iws ≠ [] := by
  obtain ⟨d, hd, hdig⟩ := h
  have : d ∈ remove_whitespace iws := by
    unfold remove_whitespace
    rw [List.mem_filter]
    exact ⟨hd, by rw [not_isPySpace_of_isDigit d hdig]; rfl⟩
  exact List.ne_nil_of_mem this

theorem pyFmtComma_ofNat (n : Nat) : pyFmtComma ((n : Int)) = commaGrouped n := by
  unfold pyFmtComma
  rw [if_neg (by omega), Int.natAbs_ofNat]

theorem amount_of_posSearch (s ip : Str) (f1 f2 : Char) (c : Cur)
    (h : posSearch s = some (ip, f1, f2, c)) :
    amount_in_ledger_fmt s =
      (pyInt (remove_whitespace ip)).map fun v =>
        some (pyFmtComma v ++ '.' :: f1 :: f2 :: ' ' :: curCode c) := by
  unfold amount_in_ledger_fmt
  rw [h]

theorem amount_of_negSearch (s ip : Str) (f1 f2 : Char) (c : Cur)
    (hp : posSearch s = none) (hn : negSearch s = some (ip, f1, f2, c)) :
    amount_in_ledger_fmt s =
      (pyInt (remove_whitespace ip)).map fun v =>
        some ('-' :: pyFmtComma v ++ '.' :: f1 :: f2 :: ' ' :: curCode c) := by
  unfold amount_in_ledger_fmt
  rw [hp, hn]

theorem amount_of_zeroSearch (s : Str) (c : Cur)
    (hp : posSearch s = none) (hn : negSearch s = none)
    (hz : zeroSearch s = some c) :
    amount_in_ledger_fmt s = some (some ("0.00 ".data ++ curCode c)) := by
  unfold amount_in_ledger_fmt
  rw [hp, hn, hz]

/-- The positive amount case of the claim: a valid positive localized amount
parses to the grouped, two-decimal, currency-coded form. -/
theorem amount_pos_eq (iws : Str) (f1 f2 : Char) (ws : Str) (cur : Cur)
    (hiws : ∀ c ∈ iws, isAmountClass c = true)
    (hdig : ∃ c ∈ iws, c.isDigit = true)
    (hf1 : f1.isDigit = true) (hf2 : f2.isDigit = true)
    (hws : ws ≠ []) (hwsall : ∀ c ∈ ws, isPySpace c = true) :
    amount_in_ledger_fmt (iws ++ ',' :: f1 :: f2 :: (ws ++ curStr cur)) =
      some (some (commaGrouped (digitsVal (remove_whitespace iws)) ++
        '.' :: f1 :: f2 :: ' ' :: curCode cur)) := by
  have hiwsne : iws ≠ [] := by
    obtain ⟨d, hd, _⟩ := hdig
    exact List.ne_nil_of_mem hd
  have hpm := posMatchAt_valid iws f1 f2 ws cur hiws hiwsne hf1 hf2 hws hwsall
  cases iws with
  | nil => exact absurd rfl hiwsne
  | cons a as =>
    have hsearch : posSearch ((a :: as) ++ ',' :: f1 :: f2 :: (ws ++ curStr cur)) =
        some (a :: as, f1, f2, cur) := by
      rw [List.cons_append]
      exact posSearch_eq_of_matchAt a _ _ (by rw [← List.cons_append]; exact hpm)
    rw [amount_of_posSearch _ _ _ _ _ hsearch,
      pyInt_digits _ (remove_whitespace_ne_nil _ hdig)
        (remove_whitespace_all_digit _ hiws),
      Option.map_some', pyFmtComma_ofNat]

/-- The negative amount case of the claim: a valid parenthesized localized
amount parses to the minus-signed grouped form. -/
theorem amount_neg_eq (iws : Str) (f1 f2 : Char) (ws : Str) (cur : Cur)
    (hiws : ∀ c ∈ iws, isAmountClass c = true)
    (hdig : ∃ c ∈ iws, c.isDigit = true)
    (hf1 : f1.isDigit = true) (hf2 : f2.isDigit = true)
    (hws : ws ≠ []) (hwsall : ∀ c ∈ ws, isPySpace c = true) :
    amount_in_ledger_fmt ('(' :: (iws ++ ',' :: f1 :: f2 :: ')' :: (ws ++ curStr cur))) =
      some (some ('-' :: commaGrouped (digitsVal (remove_whitespace iws)) ++
        '.' :: f1 :: f2 :: ' ' :: curCode cur)) := by
  have hiwsne : iws ≠ [] := by
    obtain ⟨d, hd, _⟩ := hdig
    exact List.ne_nil_of_mem hd
  have hpos := posSearch_neg_input iws f1 f2 ws cur hiws hf1 hf2 hwsall
  have hneg : negSearch ('(' :: (iws ++ ',' :: f1 :: f2 :: ')' :: (ws ++ curStr cur))) =
      some (iws, f1, f2, cur) :=
    negSearch_eq_of_matchAt '(' _ _
      (negMatchAt_valid iws f1 f2 ws cur hiws hiwsne hf1 hf2 hws hwsall)
  rw [amount_of_negSearch _ _ _ _ _ hpos hneg,
    pyInt_digits _ (remove_whitespace_ne_nil _ hdig)
      (remove_whitespace_all_digit _ hiws),
    Option.map_some', pyFmtComma_ofNat]

/-- The explicit zero case of the claim: a lone hyphen before the currency
marker parses to zero with the normalized code. -/
theorem amount_zero_eq (ws : Str) (cur : Cur)
    (hws : ws ≠ []) (hwsall : ∀ c ∈ ws, isPySpace c = true) :
    amount_in_ledger_fmt ('-' :: (ws ++ curStr cur)) =
      some (some ("0.00 ".data ++ curCode cur)) :=
  amount_of_zeroSearch _ cur
    (posSearch_zero_input ws cur hwsall)
    (negSearch_zero_input ws cur hwsall)
    (zeroSearch_eq_of_matchAt '-' _ cur (zeroMatchAt_valid ws cur hws hwsall))

/-- C1: every valid localized amount string (a structured positive,
parenthesized-negative, or explicit-zero amount) parses to the normalized
form: the integer part with thousands-grouping commas, exactly two fraction
digits, a leading minus sign when the input is parenthesized, and the
currency marker normalized to its 3-letter code. -/
theorem c1_amount_normalization (a : SrcAmount) (h : validSrc a) :
    amount_in_ledger_fmt (renderSrc a) = some (some (normalizedAmount a)) := by
  cases a with
  | pos iws f1 f2 ws cur =>
    obtain ⟨h1, h2, h3, h4, h5, h6⟩ := h
    exact amount_pos_eq iws f1 f2 ws cur h1 h2 h3 h4 h5 h6
  | neg iws f1 f2 ws cur =>
    obtain ⟨h1, h2, h3, h4, h5, h6⟩ := h
    exact amount_neg_eq iws f1 f2 ws cur h1 h2 h3 h4 h5 h6
  | zero ws cur =>
    obtain ⟨h1, h2⟩ := h
    exact amount_zero_eq ws cur h1 h2

/-- C1 witness: the three example strings of the claim. -/
theorem c1_amount_normalization_witness :
    amount_in_ledger_fmt "(2 099,49) zł".data = some (some "-2,099.49 PLN".data) ∧
    amount_in_ledger_fmt "3 999,99 EUR".data = some (some "3,999.99 EUR".data) ∧
    amount_in_ledger_fmt "-   zł".data = some (some "0.00 PLN".data) := by
  refine ⟨?_, ?_, ?_⟩
  · exact (c1_amount_normalization
      (.neg "2 099".data '4' '9' [' '] .zl)
      (by simp only [validSrc]; decide)).trans (by decide)
  · exact (c1_amount_normalization
      (.pos "3 999".data '9' '9' [' '] .eur)
      (by simp only [validSrc]; decide)).trans (by decide)
  · exact (c1_amount_normalization
      (.zero "   ".data .zl)
      (by simp only [validSrc]; decide)).trans (by decide)

/-- C8 counterexample: an em dash standing alone before the currency marker
is not recognized; the function returns the Python None instead of a zero
amount, because the zero pattern contains only the ASCII hyphen-minus. -/
theorem c8_dash_counterexample :
    amount_in_ledger_fmt "—   zł".data = some none ∧
      (some (none : Option Str)) ≠ some (some "0.00 PLN".data) := by
  constructor <;> decide

/-- C8 (amended): the amount parser recognizes an explicit zero written as
an ASCII hyphen-minus standing alone (followed by whitespace) before the
currency marker, producing zero with the normalized currency code; an em
dash or an en dash in that position matches no pattern, so the function
returns the Python None. -/
theorem c8_zero_pattern :
    (∀ (ws : Str) (cur : Cur), ws ≠ [] → (∀ c ∈ ws, isPySpace c = true) →
      amount_in_ledger_fmt ('-' :: (ws ++ curStr cur)) =
        some (some ("0.00 ".data ++ curCode cur))) ∧
    amount_in_ledger_fmt "—   zł".data = some none ∧
    amount_in_ledger_fmt "–   zł".data = some none := by
  refine ⟨fun ws cur h1 h2 => amount_zero_eq ws cur h1 h2, by decide, by decide⟩

/-- C8 witness: the hyphen zero of the docstring. -/
theorem c8_zero_pattern_witness :
    amount_in_ledger_fmt "-   zł".data = some (some "0.00 PLN".data) :=
  (c8_zero_pattern.1 "   ".data .zl (by decide) (by decide)).trans (by decide)

/-! ### Lemmas about the table renderer -/

theorem init_le_foldl_max (col : List Str) :
    ∀ a b : Nat, a ≤ b → a ≤ col.foldl (fun acc c => max acc c.length) b := by
  induction col with
  | nil => exact fun a b h => h
  | cons c cs ih =>
    intro a b h
    exact ih a (max b c.length) (le_trans h (Nat.le_max_left _ _))

theorem le_foldl_max (col : List Str) :
    ∀ (a : Nat) (x : Str), x ∈ col →
      x.length ≤ col.foldl (fun acc c => max acc c.length) a := by
  induction col with
  | nil => intro a x hx; simp at hx
  | cons c cs ih =>
    intro a x hx
    rcases List.mem_cons.mp hx with rfl | hx
    · exact init_le_foldl_max cs _ _ (Nat.le_max_right a x.length)
    · exact ih _ x hx

theorem maxLen_ge_mem (col : List Str) (x : Str) (hx : x ∈ col) :
    x.length ≤ maxLen col :=
  le_foldl_max col 0 x hx

theorem ljust_length (w : Nat) (s : Str) (h : s.length ≤ w) :
    (ljust w s).length = w := by
  unfold ljust
  rw [List.length_append, List.length_replicate]
  omega

theorem rjust_length (w : Nat) (s : Str) (h : s.length ≤ w) :
    (rjust w s).length = w := by
  unfold rjust
  rw [List.length_append, List.length_replicate]
  omega

theorem forall₂_mem_left {α β : Type} {R : α → β → Prop} {l₁ : List α}
    {l₂ : List β} (h : List.Forall₂ R l₁ l₂) (a : α) (ha : a ∈ l₁) :
    ∃ b ∈ l₂, R a b := by
  induction h with
  | nil => simp at ha
  | cons hr _ ih =>
    rcases List.mem_cons.mp ha with rfl | ha
    · exact ⟨_, List.mem_cons_self _ _, hr⟩
    · obtain ⟨b, hb, hrb⟩ := ih ha
      exact ⟨b, List.mem_cons_of_mem _ hb, hrb⟩

theorem forall₂_compose {α β γ : Type} {R : α → β → Prop} {S : β → γ → Prop}
    {T : α → γ → Prop} {l₁ : List α} {l₂ : List β} {l₃ : List γ}
    (h₁ : List.Forall₂ R l₁ l₂) (h₂ : List.Forall₂ S l₂ l₃)
    (h : ∀ a b c, R a b → S b c → T a c) : List.Forall₂ T l₁ l₃ := by
  induction h₁ generalizing l₃ with
  | nil =>
    cases h₂
    exact List.Forall₂.nil
  | cons hr _ ih =>
    cases h₂ with
    | cons hs hrest => exact List.Forall₂.cons (h _ _ _ hr hs) (ih hrest)

theorem forall₂_map_eq {α β : Type} {f : α → Nat} {g : β → Nat}
    {l₁ : List α} {l₂ : List β}
    (h : List.Forall₂ (fun a b => f a = g b) l₁ l₂) :
    l₁.map f = l₂.map g := by
  induction h with
  | nil => rfl
  | cons hr _ ih => simp [hr, ih]

theorem forall₂_map_self {α β : Type} {P : β → α → Prop} {f : α → β}
    (m : List α) (h : ∀ r ∈ m, P (f r) r) : List.Forall₂ P (m.map f) m := by
  induction m with
  | nil => exact List.Forall₂.nil
  | cons r rs ih =>
    exact List.Forall₂.cons (h r (List.mem_cons_self r rs))
      (ih (fun x hx => h x (List.mem_cons_of_mem r hx)))

theorem forall₂_map_right_elim {α β : Type} {P : α → β → Prop} {f : β → β}
    {l : List α} {m : List β} (h : List.Forall₂ P l (m.map f)) :
    List.Forall₂ (fun a b => P a (f b)) l m := by
  induction m generalizing l with
  | nil =>
    cases h
    exact List.Forall₂.nil
  | cons r rs ih =>
    cases h with
    | cons hr hrest => exact List.Forall₂.cons hr (ih hrest)

theorem headD_mem {α : Type} (l : List α) (d : α) (h : l ≠ []) :
    l.headD d ∈ l := by
  cases l with
  | nil => exact absurd rfl h
  | cons a as => exact List.mem_cons_self a as

theorem mem_of_mem_tail' {α : Type} {a : α} {l : List α} (h : a ∈ l.tail) :
    a ∈ l := by
  cases l with
  | nil => simp at h
  | cons b bs => exact List.mem_cons_of_mem b h

theorem transposedGo_length (f : Nat) (m : List (List Str)) :
    (transposedGo f m).length = f := by
  induction f generalizing m with
  | zero => rfl
  | succ n ih => simp [transposedGo, ih]

theorem transposedGo_row_length (f : Nat) (m : List (List Str)) :
    ∀ row ∈ transposedGo f m, row.length = m.length := by
  induction f generalizing m with
  | zero => intro row hrow; simp [transposedGo] at hrow
  | succ n ih =>
    intro row hrow
    simp only [transposedGo, List.mem_cons] at hrow
    rcases hrow with rfl | hrow
    · simp
    · rw [ih (m.map List.tail) row hrow, List.length_map]

theorem transposedGo_row_mem (f : Nat) (m : List (List Str))
    (hf : ∀ r ∈ m, f ≤ r.length) :
    ∀ row ∈ transposedGo f m, List.Forall₂ (fun cell r => cell ∈ r) row m := by
  induction f generalizing m with
  | zero => intro row hrow; simp [transposedGo] at hrow
  | succ n ih =>
    intro row hrow
    simp only [transposedGo, List.mem_cons] at hrow
    rcases hrow with rfl | hrow
    · exact forall₂_map_self m (fun r hr =>
        headD_mem r [] (List.ne_nil_of_length_pos (by
          have := hf r hr; omega)))
    · have htail : ∀ r ∈ m.map List.tail, n ≤ r.length := by
        intro r hr
        obtain ⟨r0, hr0, rfl⟩ := List.mem_map.mp hr
        have := hf r0 hr0
        rw [List.length_tail]
        omega
      have := ih (m.map List.tail) htail row hrow
      exact (forall₂_map_right_elim this).imp (fun _ _ h => mem_of_mem_tail' h)

theorem foldl_min_le_init (rs : List (List Str)) :
    ∀ a : Nat, rs.foldl (fun x r => min x r.length) a ≤ a := by
  induction rs with
  | nil => exact fun a => Nat.le_refl a
  | cons r rest ih =>
    intro a
    exact le_trans (ih (min a r.length)) (Nat.min_le_left _ _)

theorem foldl_min_le_mem (rs : List (List Str)) :
    ∀ (a : Nat) (r : List Str), r ∈ rs →
      rs.foldl (fun x q => min x q.length) a ≤ r.length := by
  induction rs with
  | nil => intro a r hr; simp at hr
  | cons q qs ih =>
    intro a r hr
    rcases List.mem_cons.mp hr with rfl | hr
    · exact le_trans (foldl_min_le_init qs _) (Nat.min_le_right _ _)
    · exact ih _ r hr

theorem minLenRows_le (m : List (List Str)) :
    ∀ col ∈ m, minLenRows m ≤ col.length := by
  intro col hcol
  cases m with
  | nil => simp at hcol
  | cons r rs =>
    show rs.foldl (fun a row => min a row.length) r.length ≤ col.length
    rcases List.mem_cons.mp hcol with rfl | hcol
    · exact foldl_min_le_init rs col.length
    · exact foldl_min_le_mem rs _ col hcol

theorem foldl_min_const (n : Nat) (rs : List (List Str))
    (h : ∀ r ∈ rs, r.length = n) :
    rs.foldl (fun a row => min a row.length) n = n := by
  induction rs with
  | nil => rfl
  | cons q qs ih =>
    rw [List.foldl_cons, h q (List.mem_cons_self q qs), Nat.min_self]
    exact ih (fun x hx => h x (List.mem_cons_of_mem q hx))

theorem minLenRows_rect (m : List (List Str)) (n : Nat)
    (hrect : ∀ r ∈ m, r.length = n) (hm : m ≠ []) : minLenRows m = n := by
  cases m with
  | nil => exact absurd rfl hm
  | cons r rs =>
    show rs.foldl (fun a row => min a row.length) r.length = n
    rw [hrect r (List.mem_cons_self r rs)]
    exact foldl_min_const n rs (fun x hx => hrect x (List.mem_cons_of_mem r hx))

/-- A valid justification token produces the column padded to its maximum
width: same column length, and every padded cell as wide as the column
maximum. -/
theorem justifyCol_valid (col : List Str) (tok : Str)
    (h : tok = ['l'] ∨ tok = ['r']) :
    ∃ col', justifyCol col tok = some col' ∧ col'.length = col.length ∧
      ∀ cell ∈ col', cell.length = maxLen col := by
  rcases h with rfl | rfl
  · refine ⟨col.map (ljust (maxLen col)), by unfold justifyCol; rw [if_pos rfl],
      List.length_map _ _, ?_⟩
    intro cell hcell
    obtain ⟨c, hc, rfl⟩ := List.mem_map.mp hcell
    exact ljust_length _ c (maxLen_ge_mem col c hc)
  · refine ⟨col.map (rjust (maxLen col)), by
      unfold justifyCol
      rw [if_neg (by decide), if_pos rfl], List.length_map _ _, ?_⟩
    intro cell hcell
    obtain ⟨c, hc, rfl⟩ := List.mem_map.mp hcell
    exact rjust_length _ c (maxLen_ge_mem col c hc)

/-- All tokens valid: the column loop succeeds and the justified columns
relate pointwise to the (column, token) pairs. -/
theorem justifyCols_valid (pairs : List (List Str × Str))
    (h : ∀ p ∈ pairs, p.2 = ['l'] ∨ p.2 = ['r']) :
    ∃ cols', justifyCols pairs = some cols' ∧
      List.Forall₂ (fun col' (p : List Str × Str) =>
        col'.length = p.1.length ∧ ∀ cell ∈ col', cell.length = maxLen p.1)
        cols' pairs := by
  induction pairs with
  | nil => exact ⟨[], rfl, List.Forall₂.nil⟩
  | cons p rest ih =>
    obtain ⟨col', hcol', hlen, hcells⟩ :=
      justifyCol_valid p.1 p.2 (h p (List.mem_cons_self p rest))
    obtain ⟨cols', hcols', hrel⟩ :=
      ih (fun q hq => h q (List.mem_cons_of_mem p hq))
    refine ⟨col' :: cols', ?_, List.Forall₂.cons ⟨hlen, hcells⟩ hrel⟩
    show (justifyCol p.1 p.2).bind _ = _
    rw [hcol', hcols']
    rfl

/-- A pair with an invalid token makes the column loop fail. -/
theorem justifyCols_invalid (pairs : List (List Str × Str))
    (h : ∃ p ∈ pairs, p.2 ≠ ['l'] ∧ p.2 ≠ ['r']) :
    justifyCols pairs = none := by
  induction pairs with
  | nil => simp at h
  | cons p rest ih =>
    obtain ⟨q, hq, hq1, hq2⟩ := h
    rcases List.mem_cons.mp hq with rfl | hq
    · show (justifyCol q.1 q.2).bind _ = _
      unfold justifyCol
      rw [if_neg hq1, if_neg hq2]
      rfl
    · show (justifyCol p.1 p.2).bind _ = _
      rw [ih ⟨q, hq, hq1, hq2⟩]
      cases justifyCol p.1 p.2 <;> rfl

theorem joinSep_length (sep : Str) (xs : List Str) :
    (joinSep sep xs).length =
      (xs.map List.length).sum + sep.length * (xs.length - 1) := by
  induction xs with
  | nil => rfl
  | cons x rest ih =>
    cases rest with
    | nil => simp [joinSep]
    | cons y t =>
      show (x ++ sep ++ joinSep sep (y :: t)).length = _
      rw [List.length_append, List.length_append, ih]
      simp only [List.map_cons, List.sum_cons, List.length_cons,
        Nat.add_sub_cancel]
      ring

/-- C3 counterexample: a justification spec of two tokens against a matrix
of one column succeeds (the pairing truncates, no failure), although each
token is also neither the word left nor the word right. -/
theorem c3_config_counterexample :
    table [["a".data]] "l l".data "  ".data = some "a".data ∧
      (splitWs "l l".data).length ≠ (transposed [["a".data]]).length := by
  constructor <;> decide

/-- C3 (amended): the table renderer fails (ValueError; no ConfigError
exists in the script) exactly on justification tokens other than l and r
among the pairs formed by zipping columns with tokens; a mismatch between
the number of tokens and the number of columns does not cause a failure,
because zip silently truncates to the shorter list. -/
theorem c3_table_justify (m : List (List Str)) (justify gap : Str) :
    ((∃ p ∈ (transposed m).zip (splitWs justify),
        p.2 ≠ ['l'] ∧ p.2 ≠ ['r']) →
      table m justify gap = none) ∧
    ((∀ p ∈ (transposed m).zip (splitWs justify),
        p.2 = ['l'] ∨ p.2 = ['r']) →
      (table m justify gap).isSome = true) := by
  constructor
  · intro h
    unfold table tableLines
    rw [justifyCols_invalid _ h]
    rfl
  · intro h
    obtain ⟨cols', hcols', _⟩ := justifyCols_valid _ h
    unfold table tableLines
    rw [hcols']
    rfl

/-- C3 witness: an invalid token fails, a valid pairing succeeds. -/
theorem c3_table_justify_witness :
    table [["a".data], ["b".data]] "x".data " ".data = none ∧
      (table [["a".data]] "l l".data "  ".data).isSome = true := by
  constructor
  · exact (c3_table_justify [["a".data], ["b".data]] "x".data " ".data).1
      ⟨(["a".data, "b".data], "x".data), by decide, by decide, by decide⟩
  · exact (c3_table_justify [["a".data]] "l l".data "  ".data).2 (by decide)

/-- C9: for every nonempty rectangular matrix with a matching valid
justification spec, the renderer succeeds; every justified cell of a column
is padded to that column's maximum cell width, so all cells of a column have
equal width, and every output line's length is the sum of the column widths
plus the separators. -/
theorem c9_table_alignment (m : List (List Str)) (justify gap : Str) (n : Nat)
    (hm : m ≠ []) (hrect : ∀ r ∈ m, r.length = n)
    (hlen : (splitWs justify).length = n)
    (hval : ∀ t ∈ splitWs justify, t = ['l'] ∨ t = ['r']) :
    ∃ cols' lines,
      justifyCols ((transposed m).zip (splitWs justify)) = some cols' ∧
      tableLines m justify gap = some lines ∧
      List.Forall₂ (fun col' (p : List Str × Str) =>
        ∀ cell ∈ col', cell.length = maxLen p.1) cols'
        ((transposed m).zip (splitWs justify)) ∧
      (∀ col' ∈ cols', ∀ c1 ∈ col', ∀ c2 ∈ col', c1.length = c2.length) ∧
      (∀ line ∈ lines,
        line.length = ((transposed m).map maxLen).sum +
          gap.length * (n - 1)) := by
  obtain ⟨cols', hcols', hrel⟩ :=
    justifyCols_valid ((transposed m).zip (splitWs justify)) (by
      rintro ⟨c, t⟩ hp
      exact hval t (List.of_mem_zip hp).2)
  have hcolsn : (transposed m).length = n := by
    unfold transposed
    rw [transposedGo_length, minLenRows_rect m n hrect hm]
  have hpairsn : ((transposed m).zip (splitWs justify)).length = n := by
    rw [List.length_zip, hcolsn, hlen, Nat.min_self]
  refine ⟨cols', (transposed cols').map (joinSep gap), hcols', ?_, ?_, ?_, ?_⟩
  · unfold tableLines
    rw [hcols']
    rfl
  · exact hrel.imp (fun _ _ h => h.2)
  · intro col' hcol' c1 hc1 c2 hc2
    obtain ⟨p, _, _, hcells⟩ := forall₂_mem_left hrel col' hcol'
    rw [hcells c1 hc1, hcells c2 hc2]
  · intro line hline
    obtain ⟨row', hrow', rfl⟩ := List.mem_map.mp hline
    have hmem2 : List.Forall₂ (fun cell r => cell ∈ r) row' cols' :=
      transposedGo_row_mem (minLenRows cols') cols' (minLenRows_le cols')
        row' hrow'
    have hcomp : List.Forall₂
        (fun (cell : Str) (p : List Str × Str) => cell.length = maxLen p.1)
        row' ((transposed m).zip (splitWs justify)) :=
      forall₂_compose hmem2 hrel
        (fun cell col' p hmem hr => hr.2 cell hmem)
    have hmap : row'.map List.length =
        ((transposed m).zip (splitWs justify)).map (fun p => maxLen p.1) :=
      forall₂_map_eq hcomp
    have hrowlen : row'.length = n := by
      rw [hmem2.length_eq, hrel.length_eq, hpairsn]
    have hfst : ((transposed m).zip (splitWs justify)).map Prod.fst =
        transposed m :=
      List.map_fst_zip _ _ (by rw [hcolsn, hlen])
    rw [joinSep_length, hmap, hrowlen]
    have hsum : ((transposed m).zip (splitWs justify)).map (fun p => maxLen p.1) =
        ((transposed m).map maxLen) := by
      conv_rhs => rw [← hfst, List.map_map]
      simp [Function.comp_def]
    rw [hsum]

/-- C9 witness: the example matrix and spec of the claim (two rows, three
columns, two-space gap). -/
theorem c9_table_alignment_witness :
    ∃ cols' lines,
      justifyCols ((transposed [["John Doe".data, "USA".data, "7".data],
          ["Geralt of Rivia".data, "Temeria".data, "35".data]]).zip
        (splitWs "l l r".data)) = some cols' ∧
      tableLines [["John Doe".data, "USA".data, "7".data],
          ["Geralt of Rivia".data, "Temeria".data, "35".data]]
        "l l r".data "  ".data = some lines ∧
      List.Forall₂ (fun col' (p : List Str × Str) =>
        ∀ cell ∈ col', cell.length = maxLen p.1) cols'
        ((transposed [["John Doe".data, "USA".data, "7".data],
          ["Geralt of Rivia".data, "Temeria".data, "35".data]]).zip
        (splitWs "l l r".data)) ∧
      (∀ col' ∈ cols', ∀ c1 ∈ col', ∀ c2 ∈ col', c1.length = c2.length) ∧
      (∀ line ∈ lines,
        line.length = ((transposed [["John Doe".data, "USA".data, "7".data],
          ["Geralt of Rivia".data, "Temeria".data, "35".data]]).map
            maxLen).sum + "  ".data.length * (3 - 1)) :=
  c9_table_alignment
    [["John Doe".data, "USA".data, "7".data],
     ["Geralt of Rivia".data, "Temeria".data, "35".data]]
    "l l r".data "  ".data 3 (by decide) (by decide) (by decide) (by decide)

/-! ### The parsing and grouping pipeline: C2, C5, C6 -/

theorem buildTxs_none_of_mem (data : List (List Str)) (r : List Str)
    (hr : r ∈ data) (hfail : journal_row r = none) :
    ∀ acc, buildTxs data acc = none := by
  induction data with
  | nil => simp at hr
  | cons f fs ih =>
    intro acc
    rcases List.mem_cons.mp hr with rfl | hr
    · show (journal_row r).bind _ = none
      rw [hfail]
      rfl
    · show (journal_row f).bind _ = none
      cases journal_row f with
      | none => rfl
      | some jr => exact ih hr _

/-- C2 counterexample: an input whose single data record has 6 fields (the
posting-status field is missing) parses successfully — csv.DictReader fills
the missing seventh field with None, which is never used — and the run
completes, creating the output file with the converted transaction. -/
theorem c2_six_field_counterexample :
    (∀ r ∈ dataRecords "h\n1\t1 wrz 2022\tx\tB\\A\tO\t1,00 PLN".data,
      r.length = 6) ∧
    mainOutput "h\n1\t1 wrz 2022\tx\tB\\A\tO\t1,00 PLN".data =
      some (some "2022/09/01 x\n    A:B  1.00 PLN\n\n".data) := by
  constructor <;> decide

/-- C2 (amended): a data record with a non-numeric ordinal makes the whole
parse fail, and the destination file is neither created nor modified: the
script opens the destination only after transactions_dict has consumed the
entire input, which mainOutput models by producing its outer some only when
the parse succeeded.  (A record with 6 fields does not by itself cause a
failure: the missing seventh field is filled with None and dropped.) -/
theorem c2_bad_ordinal_no_output (input : Str) (r : List Str)
    (hr : r ∈ dataRecords input)
    (hbad : (r.get? 0).bind pyInt = none) :
    transactions_dict input = none ∧ mainOutput input = none := by
  have hfail : journal_row r = none := by
    unfold journal_row
    rw [hbad]
    rfl
  have htd : transactions_dict input = none := by
    unfold transactions_dict
    unfold dataRecords at hr
    cases hrec : recordsOf input with
    | nil =>
      rw [hrec] at hr
    | cons hd data =>
      rw [hrec] at hr
      exact buildTxs_none_of_mem data r hr hfail []
  exact ⟨htd, by unfold mainOutput; rw [htd]; rfl⟩

/-- C2 witness: a data record whose ordinal field is the letter x. -/
theorem c2_bad_ordinal_no_output_witness :
    transactions_dict "h\nx\t1 wrz 2022\tx\tB\\A\tO\t1,00 PLN\tt".data = none ∧
    mainOutput "h\nx\t1 wrz 2022\tx\tB\\A\tO\t1,00 PLN\tt".data = none :=
  c2_bad_ordinal_no_output _
    ["x".data, "1 wrz 2022".data, "x".data, "B\\A".data, "O".data,
      "1,00 PLN".data, "t".data]
    (by decide) (by decide)

theorem buildTxs_foldl (data : List (List Str)) :
    ∀ (rows : List JournalRow) (acc : TxList),
      parsedRowsRec data = some rows →
      buildTxs data acc = some (rows.foldl insertRow acc) := by
  induction data with
  | nil =>
    intro rows acc h
    simp only [parsedRowsRec, Option.some.injEq] at h
    subst h
    rfl
  | cons f fs ih =>
    intro rows acc h
    simp only [parsedRowsRec] at h
    show (journal_row f).bind _ = _
    cases hjr : journal_row f with
    | none =>
      rw [hjr] at h
      simp at h
    | some r =>
      rw [hjr, Option.some_bind'] at h
      cases hrec : parsedRowsRec fs with
      | none =>
        rw [hrec] at h
        simp at h
      | some rs =>
        rw [hrec, Option.map_some', Option.some.injEq] at h
        subst h
        rw [Option.some_bind']
        rw [ih rs (insertRow acc r) hrec]
        rfl

theorem buildTxs_some_implies (data : List (List Str)) :
    ∀ (acc : TxList) (txs : TxList), buildTxs data acc = some txs →
      ∃ rows, parsedRowsRec data = some rows ∧
        txs = rows.foldl insertRow acc := by
  induction data with
  | nil =>
    intro acc txs h
    simp only [buildTxs, Option.some.injEq] at h
    exact ⟨[], rfl, h.symm⟩
  | cons f fs ih =>
    intro acc txs h
    cases hjr : journal_row f with
    | none =>
      rw [show buildTxs (f :: fs) acc = (journal_row f).bind
        (fun r => buildTxs fs (insertRow acc r)) from rfl, hjr] at h
      simp at h
    | some r =>
      rw [show buildTxs (f :: fs) acc = (journal_row f).bind
        (fun r => buildTxs fs (insertRow acc r)) from rfl, hjr] at h
      simp only [Option.some_bind'] at h
      obtain ⟨rs, hrs, htxs⟩ := ih (insertRow acc r) txs h
      refine ⟨r :: rs, ?_, htxs⟩
      simp [parsedRowsRec, hjr, hrs]

/-- The link between the grouping table and the flat parsed rows. -/
theorem transactions_dict_some (input : Str) (txs : TxList)
    (h : transactions_dict input = some txs) :
    ∃ rows, parsedRows input = some rows ∧
      txs = rows.foldl insertRow [] := by
  unfold transactions_dict at h
  cases hrec : recordsOf input with
  | nil =>
    rw [hrec] at h
    simp at h
  | cons hd data =>
    rw [hrec] at h
    obtain ⟨rows, hrows, htxs⟩ := buildTxs_some_implies data [] txs h
    refine ⟨rows, ?_, htxs⟩
    unfold parsedRows dataRecords
    rw [hrec]
    exact hrows

theorem txKeys_insertRow (txs : TxList) (r : JournalRow) :
    txKeys (insertRow txs r) =
      if r.ordinal ∈ txKeys txs then txKeys txs
      else txKeys txs ++ [r.ordinal] := by
  induction txs with
  | nil => simp [insertRow, txKeys]
  | cons p rest ih =>
    obtain ⟨k, g⟩ := p
    by_cases hk : k = r.ordinal
    · subst hk
      simp [insertRow, txKeys]
    · rw [show insertRow ((k, g) :: rest) r = (k, g) :: insertRow rest r by
        simp [insertRow, hk]]
      rw [show txKeys ((k, g) :: insertRow rest r) = k :: txKeys (insertRow rest r)
        from rfl]
      rw [show txKeys ((k, g) :: rest) = k :: txKeys rest from rfl, ih]
      by_cases hmem : r.ordinal ∈ txKeys rest
      · rw [if_pos hmem, if_pos (List.mem_cons_of_mem k hmem)]
      · rw [if_neg hmem, if_neg (by
          intro hc
          rcases List.mem_cons.mp hc with hc | hc
          · exact hk hc.symm
          · exact hmem hc)]
        rfl

theorem mem_txKeys_insertRow (txs : TxList) (r : JournalRow) (x : Int) :
    x ∈ txKeys (insertRow txs r) ↔ x ∈ txKeys txs ∨ x = r.ordinal := by
  rw [txKeys_insertRow]
  by_cases hmem : r.ordinal ∈ txKeys txs
  · rw [if_pos hmem]
    constructor
    · exact Or.inl
    · rintro (h | rfl)
      · exact h
      · exact hmem
  · rw [if_neg hmem]
    simp

theorem nodup_txKeys_insertRow (txs : TxList) (r : JournalRow)
    (h : (txKeys txs).Nodup) : (txKeys (insertRow txs r)).Nodup := by
  rw [txKeys_insertRow]
  by_cases hmem : r.ordinal ∈ txKeys txs
  · rw [if_pos hmem]
    exact h
  · rw [if_neg hmem]
    simp [List.nodup_append, h, hmem]

theorem nodup_txKeys_foldl (rows : List JournalRow) :
    ∀ acc : TxList, (txKeys acc).Nodup →
      (txKeys (rows.foldl insertRow acc)).Nodup := by
  induction rows with
  | nil => exact fun acc h => h
  | cons r rest ih =>
    intro acc h
    exact ih (insertRow acc r) (nodup_txKeys_insertRow acc r h)

theorem mem_txKeys_foldl (rows : List JournalRow) :
    ∀ (acc : TxList) (k : Int),
      k ∈ txKeys (rows.foldl insertRow acc) ↔
        k ∈ txKeys acc ∨ k ∈ rows.map JournalRow.ordinal := by
  induction rows with
  | nil => simp
  | cons r rest ih =>
    intro acc k
    rw [List.foldl_cons, ih (insertRow acc r) k, mem_txKeys_insertRow]
    simp only [List.map_cons, List.mem_cons]
    tauto

/-- C5: the Journal Writer iterates the grouping table in strictly
ascending numeric order of the integer ordinals, and the iterated ordinals
are exactly the ordinals of the parsed rows, regardless of the order in
which they appear in the input.  renderAll walks sortedKeys, so this is the
emission order of the transaction blocks. -/
theorem c5_ordinal_order (input : Str) (txs : TxList)
    (h : transactions_dict input = some txs) :
    List.Sorted (· < ·) (sortedKeys txs) ∧
    ∃ rows, parsedRows input = some rows ∧
      ∀ k : Int, k ∈ sortedKeys txs ↔ k ∈ rows.map JournalRow.ordinal := by
  obtain ⟨rows, hrows, htxs⟩ := transactions_dict_some input txs h
  have hperm : List.Perm (sortedKeys txs) (txKeys txs) :=
    List.perm_insertionSort (fun a b : Int => a ≤ b) (txKeys txs)
  have hnodup : (txKeys txs).Nodup := by
    rw [htxs]
    exact nodup_txKeys_foldl rows [] (by simp [txKeys])
  constructor
  · exact (List.sorted_insertionSort (fun a b : Int => a ≤ b)
      (txKeys txs)).lt_of_le (hperm.nodup_iff.mpr hnodup)
  · refine ⟨rows, hrows, fun k => ?_⟩
    rw [hperm.mem_iff, htxs, mem_txKeys_foldl rows [] k]
    simp [txKeys]

/-- C5 witness: ordinals appearing as 3, 1, 2 in the input are iterated as
1, 2, 3. -/
theorem c5_ordinal_order_witness :
    (List.Sorted (· < ·) (sortedKeys ((transactions_dict
      ("h\n3\t1 wrz 2022\tz\tA\\B\tX\t1,00 PLN\tt\n1\t1 wrz 2022\tz\tA\\B\tX\t1,00 PLN\tt\n2\t1 wrz 2022\tz\tA\\B\tX\t1,00 PLN\tt".data)).getD [])) ∧
    ∃ rows, parsedRows
      ("h\n3\t1 wrz 2022\tz\tA\\B\tX\t1,00 PLN\tt\n1\t1 wrz 2022\tz\tA\\B\tX\t1,00 PLN\tt\n2\t1 wrz 2022\tz\tA\\B\tX\t1,00 PLN\tt".data) = some rows ∧
      ∀ k : Int, k ∈ sortedKeys ((transactions_dict
        ("h\n3\t1 wrz 2022\tz\tA\\B\tX\t1,00 PLN\tt\n1\t1 wrz 2022\tz\tA\\B\tX\t1,00 PLN\tt\n2\t1 wrz 2022\tz\tA\\B\tX\t1,00 PLN\tt".data)).getD []) ↔
        k ∈ rows.map JournalRow.ordinal) ∧
    sortedKeys ((transactions_dict
      ("h\n3\t1 wrz 2022\tz\tA\\B\tX\t1,00 PLN\tt\n1\t1 wrz 2022\tz\tA\\B\tX\t1,00 PLN\tt\n2\t1 wrz 2022\tz\tA\\B\tX\t1,00 PLN\tt".data)).getD []) = [1, 2, 3] :=
  ⟨c5_ordinal_order _ _ (by decide), by decide⟩

theorem lookupTx_insertRow (txs : TxList) (r : JournalRow) (k : Int) :
    lookupTx k (insertRow txs r) =
      if r.ordinal = k then
        match lookupTx k txs with
        | some g => some (g ++ [r])
        | none => some [r]
      else lookupTx k txs := by
  induction txs with
  | nil =>
    by_cases hk : r.ordinal = k
    · simp [insertRow, lookupTx, hk]
    · simp [insertRow, lookupTx, hk]
  | cons p rest ih =>
    obtain ⟨k', g⟩ := p
    by_cases hins : k' = r.ordinal
    · subst hins
      by_cases hk : r.ordinal = k
      · subst hk
        simp [insertRow, lookupTx]
      · simp [insertRow, lookupTx, hk]
    · by_cases hk : k' = k
      · subst hk
        have hro : ¬(r.ordinal = k') := fun h => hins h.symm
        simp [insertRow, lookupTx, hins, hro]
      · simp [insertRow, lookupTx, hins, hk, ih]

theorem lookupTx_foldl (rows : List JournalRow) :
    ∀ (acc : TxList) (k : Int),
      lookupTx k (rows.foldl insertRow acc) =
        match lookupTx k acc with
        | some g => some (g ++ rows.filter (fun r => r.ordinal == k))
        | none =>
          if rows.filter (fun r => r.ordinal == k) = [] then none
          else some (rows.filter (fun r => r.ordinal == k)) := by
  induction rows with
  | nil =>
    intro acc k
    cases h : lookupTx k acc <;> simp [h]
  | cons r rest ih =>
    intro acc k
    rw [List.foldl_cons, ih (insertRow acc r) k, lookupTx_insertRow]
    by_cases hk : r.ordinal = k
    · rw [if_pos hk]
      have hf : (r :: rest).filter (fun q => q.ordinal == k) =
          r :: rest.filter (fun q => q.ordinal == k) := by
        simp [List.filter_cons, hk]
      rw [hf]
      cases lookupTx k acc with
      | some g => simp
      | none => simp
    · rw [if_neg hk]
      have hf : (r :: rest).filter (fun q => q.ordinal == k) =
          rest.filter (fun q => q.ordinal == k) := by
        simp [List.filter_cons, hk]
      rw [hf]

/-- C6: all rows sharing one ordinal form exactly one group, namely the
parsed rows with that ordinal in original file order (so the first row of
the group is the first matching row of the file, from which renderTx takes
the header date and description, and renderTx lays out the (account,
amount) pair of every row of the group in that order). -/
theorem c6_transaction_grouping (input : Str) (txs : TxList)
    (rows : List JournalRow) (k : Int) (g : List JournalRow)
    (hd : transactions_dict input = some txs)
    (hrows : parsedRows input = some rows)
    (hg : lookupTx k txs = some g) :
    g = rows.filter (fun r => r.ordinal == k) ∧ g ≠ [] := by
  obtain ⟨rows', hrows', htxs⟩ := transactions_dict_some input txs hd
  rw [hrows] at hrows'
  injection hrows' with he
  subst he
  rw [htxs, lookupTx_foldl rows [] k] at hg
  simp only [lookupTx] at hg
  by_cases hf : rows.filter (fun r => r.ordinal == k) = []
  · rw [if_pos hf] at hg
    exact absurd hg (by simp)
  · rw [if_neg hf] at hg
    injection hg with he2
    exact ⟨he2.symm, he2 ▸ hf⟩

/-- C6 witness: two input rows with the same ordinal and different accounts
and amounts form one group of exactly the two rows, in original order. -/
theorem c6_transaction_grouping_witness :
    ((lookupTx 1 ((transactions_dict
        "h\n1\t1 wrz 2022\ta\tA\\B\tX\t1,00 PLN\tt\n1\t1 wrz 2022\ta\tC\\D\tY\t2,00 PLN\tt".data).getD [])).getD [] =
      ((parsedRows
        "h\n1\t1 wrz 2022\ta\tA\\B\tX\t1,00 PLN\tt\n1\t1 wrz 2022\ta\tC\\D\tY\t2,00 PLN\tt".data).getD []).filter
        (fun r => r.ordinal == 1) ∧
      (lookupTx 1 ((transactions_dict
        "h\n1\t1 wrz 2022\ta\tA\\B\tX\t1,00 PLN\tt\n1\t1 wrz 2022\ta\tC\\D\tY\t2,00 PLN\tt".data).getD [])).getD [] ≠ []) ∧
    ((lookupTx 1 ((transactions_dict
        "h\n1\t1 wrz 2022\ta\tA\\B\tX\t1,00 PLN\tt\n1\t1 wrz 2022\ta\tC\\D\tY\t2,00 PLN\tt".data).getD [])).getD []).length = 2 :=
  ⟨c6_transaction_grouping
    "h\n1\t1 wrz 2022\ta\tA\\B\tX\t1,00 PLN\tt\n1\t1 wrz 2022\ta\tC\\D\tY\t2,00 PLN\tt".data
    ((transactions_dict
      "h\n1\t1 wrz 2022\ta\tA\\B\tX\t1,00 PLN\tt\n1\t1 wrz 2022\ta\tC\\D\tY\t2,00 PLN\tt".data).getD [])
    ((parsedRows
      "h\n1\t1 wrz 2022\ta\tA\\B\tX\t1,00 PLN\tt\n1\t1 wrz 2022\ta\tC\\D\tY\t2,00 PLN\tt".data).getD [])
    1
    ((lookupTx 1 ((transactions_dict
      "h\n1\t1 wrz 2022\ta\tA\\B\tX\t1,00 PLN\tt\n1\t1 wrz 2022\ta\tC\\D\tY\t2,00 PLN\tt".data).getD [])).getD [])
    (by decide) (by decide) (by decide), by decide⟩

end Tsv2Ledger
